import Mathlib

/-!
Verification development for the syllabus-extraction service
(api/pdf_syllabus_parseer.js).  Strings are embedded as List Char.
The JavaScript regular expressions built by extractSection and
extractSectionWithBoundaries all have the one shape

  HEADING \s* [:\n]+ \s* (.*?) (?= LOOKAHEAD | $)     flag: i

with HEADING a literal and LOOKAHEAD an alternation of literals.  The
flag has no m or s, so the dot never matches a newline and the dollar
only matches the very end of the input.  The matcher below implements
exactly these regexes: leftmost start position first; inside a start
position the two whitespace stars and the colon/newline plus are greedy
with backtracking, the capture is lazy, and the lookahead consumes
nothing.  Case-insensitivity is modelled by comparing lowercased
characters (the source only ever feeds ASCII literals).
-/

/-- The characters the JavaScript regex class backslash-s matches, restricted
to the ASCII range used by this program. -/
def isSpaceJS (c : Char) : Bool :=
  c = ' ' || c = '\t' || c = '\n' || c = '\r' || c = '\x0b' || c = '\x0c'

/-- The separator class between heading and body in the source pattern:
a colon or a newline. -/
def isSepJS (c : Char) : Bool :=
  c = ':' || c = '\n'

/-- Case-insensitive "pat is a prefix of s", the i-flag literal match of the
source regexes. -/
def ciStarts : List Char → List Char → Bool
  | [], _ => true
  | _ :: _, [] => false
  | a :: as, b :: bs => (a.toLower = b.toLower) && ciStarts as bs

/-- Case-sensitive starts-with, for String.prototype.startsWith in the route. -/
def startsWithChars : List Char → List Char → Bool
  | [], _ => true
  | _ :: _, [] => false
  | a :: as, b :: bs => (a = b) && startsWithChars as bs

def isAsciiUpper (c : Char) : Bool := 'A' ≤ c && c ≤ 'Z'

def isAsciiLower (c : Char) : Bool := 'a' ≤ c && c ≤ 'z'

/-- With the i flag the class [A-Z] (and likewise [a-z]) matches every ASCII
letter of either case. -/
def isAsciiLetter (c : Char) : Bool := isAsciiUpper c || isAsciiLower c

/-- The lookahead of extractSection: backslash-n [A-Z][a-z] under the i flag,
or end of input. -/
def defaultLA (rest : List Char) : Bool :=
  match rest with
  | [] => true
  | c :: t =>
    if c = '\n' then
      match t with
      | a :: b :: _ => isAsciiLetter a && isAsciiLetter b
      | _ => false
    else false

/-- The lookahead of extractSectionWithBoundaries: newline plus one of the
boundary literals, or end of input.  When the boundary list is empty the
source builds the pattern with an empty alternative, which matches
everywhere. -/
def boundaryLA (bs : List (List Char)) (rest : List Char) : Bool :=
  bs.isEmpty || rest.isEmpty || bs.any (fun b => ciStarts ('\n' :: b) rest)

/-- Lazy capture (.*?) followed by a zero-width lookahead: the shortest
run of non-newline characters after which the lookahead holds. -/
def lazyBody (la : List Char → Bool) : List Char → Option (List Char)
  | [] => if la [] then some [] else none
  | c :: t =>
    if la (c :: t) then some []
    else if c = '\n' then none
    else (lazyBody la t).map (fun cap => c :: cap)

/-- Greedy star over a character class with full backtracking into the
continuation f: longest consumed run is tried first. -/
def greedyStar (p : Char → Bool) (f : List Char → Option (List Char)) :
    List Char → Option (List Char)
  | [] => f []
  | c :: t =>
    if p c then
      match greedyStar p f t with
      | some r => some r
      | none => f (c :: t)
    else f (c :: t)

/-- Greedy plus: one mandatory character of the class, then a greedy star. -/
def greedyPlus (p : Char → Bool) (f : List Char → Option (List Char)) :
    List Char → Option (List Char)
  | [] => none
  | c :: t => if p c then greedyStar p f t else none

/-- The part of the source pattern after the heading literal:
backslash-s star, [:\n]+, backslash-s star, lazy capture, lookahead. -/
def matchSep (la : List Char → Bool) (s : List Char) : Option (List Char) :=
  greedyStar isSpaceJS (greedyPlus isSepJS (greedyStar isSpaceJS (lazyBody la))) s

/-- Try the whole pattern anchored at the current position. -/
def matchAt (heading : List Char) (la : List Char → Bool) (s : List Char) :
    Option (List Char) :=
  if ciStarts heading s then matchSep la (s.drop heading.length) else none

/-- String.prototype.match with a non-global regex: the leftmost start
position at which the pattern matches wins; the captured group is returned. -/
def findCapture (heading : List Char) (la : List Char → Bool) :
    List Char → Option (List Char)
  | [] => matchAt heading la []
  | c :: t =>
    match matchAt heading la (c :: t) with
    | some cap => some cap
    | none => findCapture heading la t

/-- JavaScript String.prototype.trim on the ASCII whitespace class. -/
def trimStart (s : List Char) : List Char := s.dropWhile isSpaceJS

/-- Remove trailing whitespace. -/
def trimEnd (s : List Char) : List Char := (s.reverse.dropWhile isSpaceJS).reverse

/-- Remove leading and trailing whitespace. -/
def trimJS (s : List Char) : List Char := trimEnd (trimStart s)

/-- extractSection from the source: match the default-lookahead pattern and
trim the captured group; null when the regex does not match. -/
def extractSection (text sectionHeading : List Char) : Option (List Char) :=
  (findCapture sectionHeading defaultLA text).map trimJS

/-- extractSectionWithBoundaries from the source: same pattern with the
boundary alternation as lookahead. -/
def extractSectionWithBoundaries (text startHeading : List Char)
    (endBoundaries : List (List Char)) : Option (List Char) :=
  (findCapture startHeading (boundaryLA endBoundaries) text).map trimJS

/-- extractSectionMultiple from the source: first heading whose
extractSection result is truthy (non-null and non-empty) wins. -/
def extractSectionMultiple (text : List Char) : List (List Char) → Option (List Char)
  | [] => none
  | h :: hs =>
    match extractSection text h with
    | some s => if s.isEmpty then extractSectionMultiple text hs else some s
    | none => extractSectionMultiple text hs

/-- JavaScript String.prototype.split on a newline: always returns at least
one (possibly empty) line. -/
def splitNl : List Char → List (List Char)
  | [] => [[]]
  | c :: t =>
    let r := splitNl t
    if c = '\n' then [] :: r
    else
      match r with
      | [] => [[c]]
      | l :: ls => (c :: l) :: ls

/-- Array.prototype.join with a newline separator. -/
def joinNl : List (List Char) → List Char
  | [] => []
  | [l] => l
  | l :: ls => l ++ '\n' :: joinNl ls

/-- Substring test (String.prototype.includes). -/
def containsSub (needle : List Char) : List Char → Bool
  | [] => needle.isEmpty
  | c :: t => startsWithChars needle (c :: t) || containsSub needle t

/-- String.prototype.toLowerCase, character by character. -/
def toLowerStr (s : List Char) : List Char := s.map Char.toLower

/-- The predicate of filterLatePolicy: the lowercased line contains the
substring late or the substring penalty. -/
def lateLinePred (line : List Char) : Bool :=
  containsSub ("late".toList) (toLowerStr line) ||
  containsSub ("penalty".toList) (toLowerStr line)

/-- filterLatePolicy from the source: keep only the matching lines and
rejoin them with newlines. -/
def filterLatePolicy (text : List Char) : List Char :=
  joinNl ((splitNl text).filter lateLinePred)

/-- Truthiness of a JavaScript string-or-null value: non-null and non-empty. -/
def truthy : Option (List Char) → Bool
  | none => false
  | some s => !s.isEmpty

/-- The static section catalog: Late Policy headings. -/
def latePolicyHeadings : List (List Char) := ["Homework:".toList]

/-- The static section catalog: Grading Policy headings. -/
def gradingPolicyHeadings : List (List Char) :=
  ["Grading Scale:".toList, "Grading Scale".toList]

/-- The static section catalog: Grading Policy boundaries. -/
def gradingPolicyBoundaries : List (List Char) :=
  ["Attendance".toList, "Course Policies".toList]

/-- The static section catalog: Grading Weights headings. -/
def gradingWeightsHeadings : List (List Char) :=
  ["Grade Evaluation:".toList, "Grade Evaluation".toList,
   "Graded Work:".toList, "Graded Work".toList]

/-- The static section catalog: Grading Weights boundaries. -/
def gradingWeightsBoundaries : List (List Char) := ["Grading Scale".toList]

/-- The route's inner loop over the headings of a section that has
boundaries: successive extractSectionWithBoundaries calls, stopping at the
first truthy result; the last (possibly falsy) result is kept otherwise. -/
def boundaryHeadingLoop (text : List Char) (bs : List (List Char)) :
    List (List Char) → Option (List Char)
  | [] => none
  | [h] => extractSectionWithBoundaries text h bs
  | h :: hs =>
    let r := extractSectionWithBoundaries text h bs
    if truthy r then r else boundaryHeadingLoop text bs hs

/-- The per-section logic of the route loop: with boundaries, run the
boundary pass and fall back to extractSectionMultiple when the pass ended
falsy; without boundaries, extractSectionMultiple directly. -/
def locateWithSpec (text : List Char) (headings : List (List Char)) :
    Option (List (List Char)) → Option (List Char)
  | some bs =>
    let r := boundaryHeadingLoop text bs headings
    if truthy r then r else extractSectionMultiple text headings
  | none => extractSectionMultiple text headings

/-- The Late Policy entry of the result: locate, then apply
filterLatePolicy when the located value is truthy. -/
def latePolicyValue (text : List Char) : Option (List Char) :=
  let r := locateWithSpec text latePolicyHeadings none
  if truthy r then r.map filterLatePolicy else r

/-- The Grading Policy entry of the result. -/
def gradingPolicyValue (text : List Char) : Option (List Char) :=
  locateWithSpec text gradingPolicyHeadings (some gradingPolicyBoundaries)

/-- The Grading Weights entry of the result. -/
def gradingWeightsValue (text : List Char) : Option (List Char) :=
  locateWithSpec text gradingWeightsHeadings (some gradingWeightsBoundaries)

/-- The route's extractedData object, in catalog insertion order. -/
def extractAll (pdfText : List Char) : List (String × Option (List Char)) :=
  [("Late Policy", latePolicyValue pdfText),
   ("Grading Policy", gradingPolicyValue pdfText),
   ("Grading Weights", gradingWeightsValue pdfText)]

/-!
Model of the stateful part: extractTextWithOCR and the POST /extract
route.  The external collaborators (pdf-parse, pdf2pic, tesseract, the
filesystem) are abstracted into an environment; the filesystem state that
the core manipulates (the per-page images, the uploaded temp file) is
threaded explicitly.  A thrown JavaScript error is modelled as an Option
none result; the page image of page i is identified by the number i.
-/

/-- Environment of one extractTextWithOCR run: page count from the
pdf-parse metadata, and for every page whether rasterization
(converter(i)) and recognition (Tesseract.recognize) succeed, and the
recognized text when they do. -/
structure OcrEnv where
  numPages : Nat
  convertOk : Nat → Bool
  recognizeOk : Nat → Bool
  pageText : Nat → List Char

/-- Outcome of the OCR loop: the returned text (none when an error was
thrown), the page-image files existing when the loop ends, and the pages
whose iteration was begun, in order. -/
structure OcrOutcome where
  text : Option (List Char)
  files : List Nat
  pages : List Nat

/-- The body of extractTextWithOCR's for loop over pages: convert page i
to an image (creating the image file), recognize it, append the text plus
a newline, and unlink the image.  A conversion or recognition error
propagates out of the loop at once; on a recognition error the unlink
line is never reached, so the image file stays. -/
def ocrLoop (env : OcrEnv) (files pages : List Nat) (acc : List Char) :
    List Nat → OcrOutcome
  | [] => ⟨some acc, files, pages⟩
  | i :: rest =>
    if env.convertOk i then
      if env.recognizeOk i then
        ocrLoop env ((files ++ [i]).erase i) (pages ++ [i])
          (acc ++ env.pageText i ++ ['\n']) rest
      else ⟨none, files ++ [i], pages ++ [i]⟩
    else ⟨none, files, pages ++ [i]⟩

/-- extractTextWithOCR from the source: loop i = 1 .. numPages. -/
def runOcr (env : OcrEnv) : OcrOutcome :=
  ocrLoop env [] [] [] (List.range' 1 env.numPages)

/-- The concatenation the OCR loop builds over a list of pages. -/
def ocrJoin (env : OcrEnv) (pages : List Nat) : List Char :=
  (pages.map (fun i => env.pageText i ++ ['\n'])).flatten

/-- The full OCR text of a document: every page's text plus a newline. -/
def ocrConcat (env : OcrEnv) : List Char := ocrJoin env (List.range' 1 env.numPages)

/-- The route's condition for falling back to OCR: the native text is
empty after trimming, or the trimmed text starts with the literal %PDF. -/
def needsOcr (t : List Char) : Bool :=
  (trimJS t).isEmpty || startsWithChars ("%PDF".toList) (trimJS t)

/-- Environment of one POST /extract request: whether the native
pdf-parse extraction succeeds, the text it returns when it does, and the
OCR environment used on fallback. -/
structure RouteEnv where
  nativeOk : Bool
  nativeText : List Char
  ocr : OcrEnv

/-- Outcome of one request: the JSON result (none when the route answered
500 from its catch block), whether fs.unlink removed the uploaded temp
file, whether OCR was invoked, the pages the OCR loop visited, and the
acquired text handed to the section extraction. -/
structure RouteOutcome where
  result : Option (List (String × Option (List Char)))
  tempFileDeleted : Bool
  ocrInvoked : Bool
  ocrPages : List Nat
  acquired : Option (List Char)

/-- The try block of app.post("/extract") after the upload validations:
native extraction, conditional OCR fallback, section extraction, then
unlink of the temp file just before res.json.  Any thrown error reaches
the catch block, which answers 500 without unlinking. -/
def processRequest (env : RouteEnv) : RouteOutcome :=
  if env.nativeOk then
    if needsOcr env.nativeText then
      match (runOcr env.ocr).text with
      | some t => ⟨some (extractAll t), true, true, (runOcr env.ocr).pages, some t⟩
      | none => ⟨none, false, true, (runOcr env.ocr).pages, none⟩
    else ⟨some (extractAll env.nativeText), true, false, [], some env.nativeText⟩
  else ⟨none, false, false, [], none⟩

/-!
Auxiliary definitions used to state the claims.
-/

/-- Case-insensitive occurrence of pat anywhere in the text. -/
def occursCI (pat : List Char) : List Char → Bool
  | [] => ciStarts pat []
  | c :: t => ciStarts pat (c :: t) || occursCI pat t

/-- Position j is the start of a line break followed by one of the
boundary literals. -/
def lineBoundaryAt (text : List Char) (bs : List (List Char)) (j : Nat) : Bool :=
  match text.drop j with
  | c :: t => (c = '\n') && bs.any (fun b => ciStarts b t)
  | [] => false

/-- Least case-insensitive occurrence position of pat in the text. -/
def firstOccCI (pat : List Char) : List Char → Option Nat
  | [] => if ciStarts pat [] then some 0 else none
  | c :: t =>
    if ciStarts pat (c :: t) then some 0 else (firstOccCI pat t).map (· + 1)

/-- Least index at or after start where a boundary line begins. -/
def firstBoundaryAfter (text : List Char) (bs : List (List Char)) (start : Nat) :
    Option Nat :=
  (List.range (text.length + 1)).find?
    (fun j => decide (start ≤ j) && lineBoundaryAt text bs j)

/-- Position j is a line break followed by a capital ASCII letter and then a
lowercase ASCII letter, the case-sensitive reading of the spec's default
boundary. -/
def capLowerAt (text : List Char) (j : Nat) : Bool :=
  match text.drop j with
  | c :: a :: b :: _ => (c = '\n') && isAsciiUpper a && isAsciiLower b
  | _ => false

/-- Claim C3 as stated: whenever the boundary-aware locator returns a
string, the first heading occurrence is at p0, and some boundary literal
starts a line at or after the heading's end (earliest such position jb),
the returned string is the trim of a region of the text lying entirely
between the heading start and that earliest boundary line. -/
def claimC3Stmt (text h : List Char) (bs : List (List Char)) : Prop :=
  ∀ s, extractSectionWithBoundaries text h bs = some s →
    ∀ p0, firstOccCI h text = some p0 →
      ∀ jb, firstBoundaryAfter text bs (p0 + h.length) = some jb →
        ∃ i j : Fin (text.length + 1), p0 ≤ (i : Nat) ∧ (i : Nat) ≤ (j : Nat) ∧
          (j : Nat) ≤ jb ∧
          s = trimJS ((text.drop (i : Nat)).take ((j : Nat) - (i : Nat)))

/-- Claim C8 as stated: a non-null default-pattern result is the trim of a
region of the text that ends at end of text or immediately before a line
starting with a capitalized-then-lowercase pair of letters. -/
def claimC8Stmt (text h : List Char) : Prop :=
  ∀ s, extractSection text h = some s →
    ∃ i j : Fin (text.length + 1), (i : Nat) ≤ (j : Nat) ∧
      s = trimJS ((text.drop (i : Nat)).take ((j : Nat) - (i : Nat))) ∧
      ((j : Nat) = text.length ∨ capLowerAt text (j : Nat) = true)

/-- A string with no leading and no trailing whitespace. -/
def isTrimmed (s : List Char) : Prop :=
  (∀ c, s.head? = some c → isSpaceJS c = false) ∧
  (∀ c, s.getLast? = some c → isSpaceJS c = false)

/-- A request whose native pdf-parse read throws. -/
def envNativeFail : RouteEnv :=
  ⟨false, [], ⟨0, fun _ => true, fun _ => true, fun _ => []⟩⟩

/-- A one-page document whose OCR recognition step throws. -/
def envRecogFail : OcrEnv := ⟨1, fun _ => true, fun _ => false, fun _ => []⟩

/-- A two-page scanned document (native text is the raw %PDF header) whose
conversion and recognition succeed on every page. -/
def envOcrDemo : RouteEnv :=
  ⟨true, "%PDF-1.4".toList,
   ⟨2, fun _ => true, fun _ => true,
    fun i => if i = 1 then "pg1".toList else "pg2".toList⟩⟩

/-!
Structural lemmas about the matcher.
-/

theorem lazyBody_sound (la : List Char → Bool) (s : List Char) :
    ∀ cap, lazyBody la s = some cap →
      ∃ rest, s = cap ++ rest ∧ la rest = true ∧ ∀ c ∈ cap, c ≠ '\n' := by
  induction s with
  | nil =>
    intro cap h
    simp only [lazyBody] at h
    split at h
    · rename_i hla
      cases h
      exact ⟨[], rfl, hla, by simp⟩
    · exact absurd h (by simp)
  | cons c t ih =>
    intro cap h
    simp only [lazyBody] at h
    split at h
    · rename_i hla
      cases h
      exact ⟨c :: t, rfl, hla, by simp⟩
    · split at h
      · exact absurd h (by simp)
      · rename_i hnl
        rcases Option.map_eq_some'.mp h with ⟨cap', hcap', rfl⟩
        rcases ih cap' hcap' with ⟨rest, rfl, hrest, hnonl⟩
        refine ⟨rest, rfl, hrest, ?_⟩
        intro x hx
        rcases List.mem_cons.mp hx with rfl | hx
        · exact hnl
        · exact hnonl x hx

theorem greedyStar_sound (p : Char → Bool) (f : List Char → Option (List Char))
    (s : List Char) : ∀ r, greedyStar p f s = some r →
      ∃ u t, s = u ++ t ∧ f t = some r := by
  induction s with
  | nil => intro r h; exact ⟨[], [], rfl, h⟩
  | cons c tl ih =>
    intro r h
    simp only [greedyStar] at h
    split at h
    · split at h
      · rename_i r2 hr2
        have h2 : r2 = r := by injection h
        subst h2
        rcases ih r2 hr2 with ⟨u, t, rfl, hf⟩
        exact ⟨c :: u, t, rfl, hf⟩
      · exact ⟨[], c :: tl, rfl, h⟩
    · exact ⟨[], c :: tl, rfl, h⟩

theorem greedyPlus_sound (p : Char → Bool) (f : List Char → Option (List Char))
    (s : List Char) : ∀ r, greedyPlus p f s = some r →
      ∃ u t, s = u ++ t ∧ f t = some r := by
  intro r h
  cases s with
  | nil => simp [greedyPlus] at h
  | cons c tl =>
    simp only [greedyPlus] at h
    split at h
    · rcases greedyStar_sound p f tl r h with ⟨u, t, rfl, hf⟩
      exact ⟨c :: u, t, rfl, hf⟩
    · exact absurd h (by simp)

theorem matchSep_sound (la : List Char → Bool) (s cap : List Char)
    (h : matchSep la s = some cap) :
    ∃ u rest, s = u ++ cap ++ rest ∧ la rest = true ∧ ∀ c ∈ cap, c ≠ '\n' := by
  rcases greedyStar_sound _ _ _ _ h with ⟨u1, t1, rfl, h1⟩
  rcases greedyPlus_sound _ _ _ _ h1 with ⟨u2, t2, rfl, h2⟩
  rcases greedyStar_sound _ _ _ _ h2 with ⟨u3, t3, rfl, h3⟩
  rcases lazyBody_sound _ _ _ h3 with ⟨rest, rfl, hla, hnl⟩
  exact ⟨u1 ++ u2 ++ u3, rest, by simp [List.append_assoc], hla, hnl⟩

theorem matchAt_sound (heading : List Char) (la : List Char → Bool)
    (s cap : List Char) (h : matchAt heading la s = some cap) :
    ∃ u rest, s = u ++ cap ++ rest ∧ la rest = true ∧ ∀ c ∈ cap, c ≠ '\n' := by
  unfold matchAt at h
  split at h
  · rcases matchSep_sound la _ cap h with ⟨u, rest, hdec, hla, hnl⟩
    refine ⟨s.take heading.length ++ u, rest, ?_, hla, hnl⟩
    conv_lhs => rw [← List.take_append_drop heading.length s]
    rw [hdec]
    simp [List.append_assoc]
  · exact absurd h (by simp)

theorem findCapture_sound (heading : List Char) (la : List Char → Bool)
    (text : List Char) : ∀ cap, findCapture heading la text = some cap →
      ∃ u rest, text = u ++ cap ++ rest ∧ la rest = true ∧ ∀ c ∈ cap, c ≠ '\n' := by
  induction text with
  | nil => intro cap h; exact matchAt_sound _ _ _ _ h
  | cons c tl ih =>
    intro cap h
    simp only [findCapture] at h
    split at h
    · rename_i cap' heq
      cases h
      exact matchAt_sound _ _ _ _ heq
    · rcases ih cap h with ⟨u, rest, hdec, hla, hnl⟩
      refine ⟨c :: u, rest, ?_, hla, hnl⟩
      rw [hdec]
      rfl

theorem matchAt_occ (heading : List Char) (la : List Char → Bool)
    (s cap : List Char) (h : matchAt heading la s = some cap) :
    ciStarts heading s = true := by
  unfold matchAt at h
  split at h
  · assumption
  · exact absurd h (by simp)

theorem findCapture_occ (heading : List Char) (la : List Char → Bool)
    (text : List Char) : ∀ cap, findCapture heading la text = some cap →
      occursCI heading text = true := by
  induction text with
  | nil => intro cap h; simpa [occursCI] using matchAt_occ _ _ _ _ h
  | cons c tl ih =>
    intro cap h
    simp only [findCapture] at h
    split at h
    · rename_i cap' heq
      simp [occursCI, matchAt_occ _ _ _ _ heq]
    · simp [occursCI, ih cap h]

/-!
Lemmas about JavaScript trim.
-/

theorem head_dropWhile_not (p : Char → Bool) (l : List Char) :
    ∀ c, (l.dropWhile p).head? = some c → p c = false := by
  induction l with
  | nil => intro c h; simp [List.dropWhile] at h
  | cons a t ih =>
    intro c h
    rw [List.dropWhile_cons] at h
    split at h
    · exact ih c h
    · rename_i hp
      have : a = c := by simpa using h
      subst this
      simpa using hp

theorem dropWhile_eq_self_of_head (p : Char → Bool) (l : List Char)
    (h : ∀ c, l.head? = some c → p c = false) : l.dropWhile p = l := by
  cases l with
  | nil => rfl
  | cons a t => rw [List.dropWhile_cons, h a rfl]; simp

theorem trimEnd_cons (a : Char) (t : List Char) :
    trimEnd (a :: t) =
      if trimEnd t = [] then (if isSpaceJS a then [] else [a])
      else a :: trimEnd t := by
  unfold trimEnd
  rw [List.reverse_cons, List.dropWhile_append]
  by_cases he : (t.reverse.dropWhile isSpaceJS).isEmpty
  · rw [if_pos he]
    have ht : (t.reverse.dropWhile isSpaceJS).reverse = [] := by
      rw [List.isEmpty_iff.mp he]; rfl
    rw [if_pos ht]
    by_cases hs : isSpaceJS a
    · simp [List.dropWhile, hs]
    · simp [List.dropWhile, hs]
  · rw [if_neg he]
    have ht : ¬ (t.reverse.dropWhile isSpaceJS).reverse = [] := by
      intro hc
      apply he
      rw [List.isEmpty_iff]
      have := congrArg List.reverse hc
      simpa using this
    rw [if_neg ht]
    simp

theorem head_trimEnd (a : Char) (t : List Char) :
    ∀ c, (trimEnd (a :: t)).head? = some c → c = a := by
  intro c h
  rw [trimEnd_cons] at h
  split at h
  · split at h
    · simp at h
    · have : a = c := by simpa using h
      exact this.symm
  · have : a = c := by simpa using h
    exact this.symm

theorem getLast_trimEnd (l : List Char) :
    ∀ c, (trimEnd l).getLast? = some c → isSpaceJS c = false := by
  intro c h
  unfold trimEnd at h
  rw [List.getLast?_reverse] at h
  exact head_dropWhile_not _ _ c h

theorem trimJS_isTrimmed (l : List Char) : isTrimmed (trimJS l) := by
  constructor
  · intro c h
    unfold trimJS at h
    cases hx : trimStart l with
    | nil => rw [hx] at h; simp [trimEnd] at h
    | cons a t =>
      rw [hx] at h
      have hca := head_trimEnd a t c h
      subst hca
      exact head_dropWhile_not isSpaceJS l c (by
        have : l.dropWhile isSpaceJS = c :: t := hx
        rw [this]; rfl)
  · intro c h
    unfold trimJS at h
    exact getLast_trimEnd _ c h

theorem trimmed_eq_self (s : List Char) (h : isTrimmed s) : trimJS s = s := by
  unfold trimJS trimStart trimEnd
  rw [dropWhile_eq_self_of_head isSpaceJS s h.1]
  rw [dropWhile_eq_self_of_head isSpaceJS s.reverse (by
    intro c hc
    rw [List.head?_reverse] at hc
    exact h.2 c hc)]
  simp

theorem mem_trimJS (s : List Char) (c : Char) (h : c ∈ trimJS s) : c ∈ s := by
  unfold trimJS trimEnd trimStart at h
  rw [List.mem_reverse] at h
  have h1 := (List.dropWhile_sublist isSpaceJS).mem h
  rw [List.mem_reverse] at h1
  exact (List.dropWhile_sublist isSpaceJS).mem h1

/-!
Soundness of the three extraction functions.
-/

theorem extractSection_sound (text h s : List Char)
    (hres : extractSection text h = some s) :
    ∃ u cap rest, text = u ++ cap ++ rest ∧ s = trimJS cap ∧
      (∀ c ∈ cap, c ≠ '\n') ∧ defaultLA rest = true := by
  rcases Option.map_eq_some'.mp hres with ⟨cap, hcap, rfl⟩
  rcases findCapture_sound _ _ _ _ hcap with ⟨u, rest, hdec, hla, hnl⟩
  exact ⟨u, cap, rest, hdec, rfl, hnl, hla⟩

theorem extractSectionWithBoundaries_sound (text h : List Char)
    (bs : List (List Char)) (s : List Char)
    (hres : extractSectionWithBoundaries text h bs = some s) :
    ∃ u cap rest, text = u ++ cap ++ rest ∧ s = trimJS cap ∧
      (∀ c ∈ cap, c ≠ '\n') ∧ boundaryLA bs rest = true := by
  rcases Option.map_eq_some'.mp hres with ⟨cap, hcap, rfl⟩
  rcases findCapture_sound _ _ _ _ hcap with ⟨u, rest, hdec, hla, hnl⟩
  exact ⟨u, cap, rest, hdec, rfl, hnl, hla⟩

theorem extractSection_no_nl (text h s : List Char)
    (hres : extractSection text h = some s) : ∀ c ∈ s, c ≠ '\n' := by
  rcases extractSection_sound text h s hres with ⟨u, cap, rest, _, rfl, hnl, _⟩
  intro c hc
  exact hnl c (mem_trimJS cap c hc)

theorem extractSectionWithBoundaries_no_nl (text h : List Char)
    (bs : List (List Char)) (s : List Char)
    (hres : extractSectionWithBoundaries text h bs = some s) :
    ∀ c ∈ s, c ≠ '\n' := by
  rcases extractSectionWithBoundaries_sound text h bs s hres with
    ⟨u, cap, rest, _, rfl, hnl, _⟩
  intro c hc
  exact hnl c (mem_trimJS cap c hc)

theorem extractSection_trimmed (text h s : List Char)
    (hres : extractSection text h = some s) : isTrimmed s := by
  rcases Option.map_eq_some'.mp hres with ⟨cap, _, rfl⟩
  exact trimJS_isTrimmed cap

theorem extractSectionWithBoundaries_trimmed (text h : List Char)
    (bs : List (List Char)) (s : List Char)
    (hres : extractSectionWithBoundaries text h bs = some s) : isTrimmed s := by
  rcases Option.map_eq_some'.mp hres with ⟨cap, _, rfl⟩
  exact trimJS_isTrimmed cap

theorem extractSectionMultiple_sound (text : List Char) :
    ∀ hs s, extractSectionMultiple text hs = some s →
      s ≠ [] ∧ isTrimmed s ∧ ∀ c ∈ s, c ≠ '\n' := by
  intro hs
  induction hs with
  | nil => intro s h; simp [extractSectionMultiple] at h
  | cons hd tl ih =>
    intro s h
    simp only [extractSectionMultiple] at h
    split at h
    · rename_i s' hs'
      split at h
      · exact ih s h
      · rename_i hne
        have hss : s' = s := by injection h
        subst hss
        refine ⟨by simpa [List.isEmpty_iff] using hne, ?_, ?_⟩
        · exact extractSection_trimmed text hd s' hs'
        · exact extractSection_no_nl text hd s' hs'
    · exact ih s h

theorem extractSectionMultiple_no_nl (text : List Char) (hs : List (List Char))
    (s : List Char) (h : extractSectionMultiple text hs = some s) :
    ∀ c ∈ s, c ≠ '\n' :=
  (extractSectionMultiple_sound text hs s h).2.2

/-!
Lemmas about the route loop and the late-policy filter.
-/

theorem boundaryHeadingLoop_sound (text : List Char) (bs : List (List Char)) :
    ∀ hs s, boundaryHeadingLoop text bs hs = some s →
      isTrimmed s ∧ ∀ c ∈ s, c ≠ '\n' := by
  intro hs
  induction hs with
  | nil => intro s h; simp [boundaryHeadingLoop] at h
  | cons hd tl ih =>
    intro s h
    cases tl with
    | nil =>
      simp only [boundaryHeadingLoop] at h
      exact ⟨extractSectionWithBoundaries_trimmed text hd bs s h,
        extractSectionWithBoundaries_no_nl text hd bs s h⟩
    | cons hd2 tl2 =>
      simp only [boundaryHeadingLoop] at h
      split at h
      · exact ⟨extractSectionWithBoundaries_trimmed text hd bs s h,
          extractSectionWithBoundaries_no_nl text hd bs s h⟩
      · exact ih s h

theorem locateWithSpec_bounds_sound (text : List Char)
    (headings bs : List (List Char)) (s : List Char)
    (h : locateWithSpec text headings (some bs) = some s) :
    s ≠ [] ∧ isTrimmed s ∧ ∀ c ∈ s, c ≠ '\n' := by
  simp only [locateWithSpec] at h
  split at h
  · rename_i htr
    have hnil : s ≠ [] := by
      rw [h] at htr
      simpa [truthy, List.isEmpty_iff] using htr
    rcases boundaryHeadingLoop_sound text bs headings s h with ⟨h1, h2⟩
    exact ⟨hnil, h1, h2⟩
  · exact extractSectionMultiple_sound text headings s h

theorem splitNl_no_nl (v : List Char) (h : ∀ c ∈ v, c ≠ '\n') :
    splitNl v = [v] := by
  induction v with
  | nil => rfl
  | cons c t ih =>
    have hc : c ≠ '\n' := h c (List.mem_cons_self c t)
    have ht := ih (fun x hx => h x (List.mem_cons_of_mem c hx))
    simp only [splitNl, ht, if_neg hc]

theorem joinNl_single (v : List Char) : joinNl [v] = v := rfl

theorem filterLatePolicy_single (v : List Char) (h : ∀ c ∈ v, c ≠ '\n') :
    filterLatePolicy v = v ∨ filterLatePolicy v = [] := by
  unfold filterLatePolicy
  rw [splitNl_no_nl v h, List.filter_cons]
  by_cases hp : lateLinePred v
  · left; rw [if_pos hp]; simp [joinNl]
  · right; rw [if_neg hp]; simp [joinNl]

theorem latePolicyValue_sound (text s : List Char)
    (h : latePolicyValue text = some s) : isTrimmed s := by
  simp only [latePolicyValue, locateWithSpec] at h
  split at h
  · rename_i htr
    rcases hr : extractSectionMultiple text latePolicyHeadings with _ | v
    · rw [hr] at h; simp at h
    · rw [hr] at h
      have hvs : filterLatePolicy v = s := by simpa using h
      rcases extractSectionMultiple_sound text latePolicyHeadings v hr with
        ⟨hne, htrim, hnl⟩
      rcases filterLatePolicy_single v hnl with hfv | hfv
      · rw [hfv] at hvs; subst hvs; exact htrim
      · rw [hfv] at hvs; subst hvs
        exact ⟨fun c hc => by simp at hc, fun c hc => by simp at hc⟩
  · exact (extractSectionMultiple_sound text latePolicyHeadings s h).2.1

/-!
Lemmas about split and join, used for the filter claims.
-/

theorem splitNl_ne_nil (t : List Char) : splitNl t ≠ [] := by
  induction t with
  | nil => simp [splitNl]
  | cons c t ih =>
    simp only [splitNl]
    split
    · simp
    · split
      · simp
      · simp

theorem splitNl_lines_no_nl (t : List Char) :
    ∀ l ∈ splitNl t, ∀ c ∈ l, c ≠ '\n' := by
  induction t with
  | nil =>
    intro l hl
    simp [splitNl] at hl
    subst hl
    simp
  | cons a t ih =>
    intro l hl
    simp only [splitNl] at hl
    split at hl
    · rcases List.mem_cons.mp hl with rfl | hl
      · simp
      · exact ih l hl
    · rename_i ha
      rcases hr : splitNl t with _ | ⟨l0, ls0⟩
      · exact absurd hr (splitNl_ne_nil t)
      · rw [hr] at hl
        rcases List.mem_cons.mp hl with rfl | hl
        · intro c hc
          rcases List.mem_cons.mp hc with rfl | hc
          · exact ha
          · exact ih l0 (by rw [hr]; exact List.mem_cons_self l0 ls0) c hc
        · exact ih l (by rw [hr]; exact List.mem_cons_of_mem l0 hl)

theorem splitNl_append_nl (x : List Char) (r : List Char)
    (h : ∀ c ∈ x, c ≠ '\n') : splitNl (x ++ '\n' :: r) = x :: splitNl r := by
  induction x with
  | nil => simp [splitNl]
  | cons a x ih =>
    have ha : a ≠ '\n' := h a (List.mem_cons_self a x)
    have hx := ih (fun c hc => h c (List.mem_cons_of_mem a hc))
    simp only [List.cons_append, splitNl, if_neg ha]
    rw [show x.append ('\n' :: r) = x ++ '\n' :: r from rfl, hx]

theorem splitNl_joinNl (L : List (List Char)) (hne : L ≠ [])
    (h : ∀ l ∈ L, ∀ c ∈ l, c ≠ '\n') : splitNl (joinNl L) = L := by
  induction L with
  | nil => exact absurd rfl hne
  | cons x L ih =>
    cases L with
    | nil =>
      rw [joinNl_single]
      exact splitNl_no_nl x (h x (List.mem_cons_self x []))
    | cons y L2 =>
      have hx : ∀ c ∈ x, c ≠ '\n' := h x (List.mem_cons_self x (y :: L2))
      have hrest : ∀ l ∈ y :: L2, ∀ c ∈ l, c ≠ '\n' :=
        fun l hl => h l (List.mem_cons_of_mem x hl)
      have : joinNl (x :: y :: L2) = x ++ '\n' :: joinNl (y :: L2) := rfl
      rw [this, splitNl_append_nl x _ hx, ih (by simp) hrest]

/-!
Lemmas about the OCR loop and the route.
-/

theorem ocrLoop_success (env : OcrEnv)
    (hc : ∀ i, env.convertOk i = true) (hr : ∀ i, env.recognizeOk i = true) :
    ∀ todo files pages acc,
      (ocrLoop env files pages acc todo).text = some (acc ++ ocrJoin env todo) ∧
      (ocrLoop env files pages acc todo).pages = pages ++ todo := by
  intro todo
  induction todo with
  | nil => intro files pages acc; simp [ocrLoop, ocrJoin]
  | cons i rest ih =>
    intro files pages acc
    simp only [ocrLoop, hc i, hr i, if_true]
    have h2 := ih ((files ++ [i]).erase i) (pages ++ [i])
      (acc ++ env.pageText i ++ ['\n'])
    refine ⟨?_, ?_⟩
    · rw [h2.1]
      simp [ocrJoin, List.append_assoc]
    · rw [h2.2]
      simp

theorem ocrLoop_files (env : OcrEnv) :
    ∀ todo pages acc,
      (ocrLoop env [] pages acc todo).files = [] ∨
      ∃ i, (ocrLoop env [] pages acc todo).files = [i] ∧
        env.convertOk i = true ∧ env.recognizeOk i = false ∧
        (ocrLoop env [] pages acc todo).text = none ∧
        i ∈ (ocrLoop env [] pages acc todo).pages := by
  intro todo
  induction todo with
  | nil => intro pages acc; left; rfl
  | cons i rest ih =>
    intro pages acc
    by_cases hc : env.convertOk i = true
    · by_cases hr : env.recognizeOk i = true
      · have he : (([] : List Nat) ++ [i]).erase i = [] := by simp
        simp only [ocrLoop, hc, hr, if_true, he]
        exact ih (pages ++ [i]) (acc ++ env.pageText i ++ ['\n'])
      · right
        refine ⟨i, ?_, hc, by simpa using hr, ?_, ?_⟩
        · simp [ocrLoop, hc, hr]
        · simp [ocrLoop, hc, hr]
        · simp [ocrLoop, hc, hr]
    · left
      simp [ocrLoop, hc]

theorem extractSection_none_of_no_occ (text hd : List Char)
    (h : occursCI hd text = false) : extractSection text hd = none := by
  rcases hfc : findCapture hd defaultLA text with _ | cap
  · simp [extractSection, hfc]
  · have hocc := findCapture_occ hd defaultLA text cap hfc
    rw [h] at hocc
    cases hocc

theorem extractSectionMultiple_none_of_no_occ (text : List Char) :
    ∀ hs, (∀ hd ∈ hs, occursCI hd text = false) →
      extractSectionMultiple text hs = none := by
  intro hs
  induction hs with
  | nil => intro _; rfl
  | cons hd tl ih =>
    intro h
    simp only [extractSectionMultiple]
    rw [extractSection_none_of_no_occ text hd (h hd (List.mem_cons_self hd tl))]
    exact ih (fun x hx => h x (List.mem_cons_of_mem hd hx))

/-!
The claims.
-/

/-- Claim C7: any non-null string returned by extractSection,
extractSectionWithBoundaries or extractSectionMultiple contains no
newline character, so the captured section body never spans more than one
line of the source text. -/
theorem claim_C7_no_newline :
    (∀ text h s, extractSection text h = some s →
      s.all (fun c => c != '\n') = true) ∧
    (∀ text h bs s, extractSectionWithBoundaries text h bs = some s →
      s.all (fun c => c != '\n') = true) ∧
    (∀ text hs s, extractSectionMultiple text hs = some s →
      s.all (fun c => c != '\n') = true) := by
  refine ⟨?_, ?_, ?_⟩
  · intro text h s hres
    rw [List.all_eq_true]
    intro c hc
    simpa using extractSection_no_nl text h s hres c hc
  · intro text h bs s hres
    rw [List.all_eq_true]
    intro c hc
    simpa using extractSectionWithBoundaries_no_nl text h bs s hres c hc
  · intro text hs s hres
    rw [List.all_eq_true]
    intro c hc
    simpa using extractSectionMultiple_no_nl text hs s hres c hc

/-- Witness for C7: the section extracted from a concrete text has no
newline. -/
theorem claim_C7_witness : ("abc".toList).all (fun c => c != '\n') = true :=
  claim_C7_no_newline.1 ("Homework:\nabc".toList) ("Homework:".toList)
    ("abc".toList) (by rfl)

/-- Claim C9: the late-policy filter output consists only of input lines,
in their original relative order, every kept line mentions late or
penalty case-insensitively, and applying the filter twice equals applying
it once. -/
theorem claim_C9_filter (text : List Char) :
    ∃ kept, filterLatePolicy text = joinNl kept ∧
      kept.Sublist (splitNl text) ∧
      (∀ l ∈ kept, lateLinePred l = true) ∧
      filterLatePolicy (filterLatePolicy text) = filterLatePolicy text := by
  refine ⟨(splitNl text).filter lateLinePred, rfl, List.filter_sublist _, ?_, ?_⟩
  · intro l hl
    exact (List.mem_filter.mp hl).2
  · rcases hk : (splitNl text).filter lateLinePred with _ | ⟨l0, ls0⟩
    · have h1 : filterLatePolicy text = [] := by
        unfold filterLatePolicy
        rw [hk]
        rfl
      rw [h1]
      decide
    · have hnl : ∀ l ∈ (splitNl text).filter lateLinePred, ∀ c ∈ l, c ≠ '\n' :=
        fun l hl => splitNl_lines_no_nl text l (List.mem_filter.mp hl).1
      have hs : splitNl (joinNl ((splitNl text).filter lateLinePred)) =
          (splitNl text).filter lateLinePred :=
        splitNl_joinNl _ (by rw [hk]; simp) hnl
      unfold filterLatePolicy
      rw [hs, List.filter_eq_self.mpr (fun a ha => (List.mem_filter.mp ha).2)]

/-- Witness for C9: idempotence at a concrete text. -/
theorem claim_C9_witness :
    filterLatePolicy (filterLatePolicy
        ("one late day\nno mention\n5% penalty".toList)) =
      filterLatePolicy ("one late day\nno mention\n5% penalty".toList) :=
  (claim_C9_filter ("one late day\nno mention\n5% penalty".toList)).choose_spec.2.2.2

/-- Claim C10: when no heading variant occurs anywhere in the text
(case-insensitively), the locator returns null for the heading list and
for every single heading; being total functions, they cannot throw. -/
theorem claim_C10_locator (text : List Char) (hs : List (List Char))
    (h : ∀ hd ∈ hs, occursCI hd text = false) :
    extractSectionMultiple text hs = none ∧
    ∀ hd ∈ hs, extractSection text hd = none := by
  refine ⟨extractSectionMultiple_none_of_no_occ text hs h, ?_⟩
  intro hd hhd
  exact extractSection_none_of_no_occ text hd (h hd hhd)

/-- Witness for C10 at a concrete text with no heading occurrence. -/
theorem claim_C10_witness :
    extractSectionMultiple ("hello world".toList) ["Homework:".toList] = none :=
  (claim_C10_locator ("hello world".toList) ["Homework:".toList] (by decide)).1

/-- Counterexample to claim C4 as stated: when native extraction throws,
the catch path answers 500 and the uploaded temp file is not deleted. -/
theorem claim_C4_counterexample :
    ¬ ∀ env : RouteEnv, (processRequest env).tempFileDeleted = true := by
  intro hcl
  have h := hcl envNativeFail
  have h2 : (processRequest envNativeFail).tempFileDeleted = false := rfl
  rw [h2] at h
  cases h

/-- Claim C4 amended: the uploaded temp file is deleted exactly when the
request pipeline succeeds and a result is returned; on an acquisition
error the catch block answers without cleaning up. -/
theorem claim_C4_amended (env : RouteEnv) :
    (processRequest env).tempFileDeleted = (processRequest env).result.isSome := by
  unfold processRequest
  split
  · split
    · split <;> rfl
    · rfl
  · rfl

/-- Counterexample to claim C5 as stated: a one-page document whose
recognition step throws leaves the page-1 image file behind. -/
theorem claim_C5_counterexample :
    ¬ ∀ env : OcrEnv, ∀ i ∈ (runOcr env).pages, i ∉ (runOcr env).files := by
  intro hcl
  have h1 : (runOcr envRecogFail).pages = [1] := rfl
  have h2 : (runOcr envRecogFail).files = [1] := rfl
  have h := hcl envRecogFail 1 (by rw [h1]; exact List.mem_cons_self 1 [])
  rw [h2] at h
  exact h (List.mem_cons_self 1 [])

/-- Claim C5 amended: after the OCR loop either no page image remains --
in particular whenever every recognition succeeded, since a successful
recognition is followed at once by the unlink of its page image, before
the next page begins -- or the loop aborted on a page whose conversion
succeeded but whose recognition failed, and exactly that page's image
remains. -/
theorem claim_C5_amended (env : OcrEnv) :
    (runOcr env).files = [] ∨
    ∃ i, (runOcr env).files = [i] ∧ env.convertOk i = true ∧
      env.recognizeOk i = false ∧ (runOcr env).text = none ∧
      i ∈ (runOcr env).pages :=
  ocrLoop_files env (List.range' 1 env.numPages) [] []

/-- Claim C6: OCR is invoked iff the trimmed native text is empty or
starts with the literal %PDF; when invoked (with every page conversion
and recognition succeeding), the loop visits pages 1..N in increasing
order exactly once each and acquires the concatenation of the page texts,
each followed by a newline; when not invoked, the native text is used and
no page is visited. -/
theorem claim_C6_ocr (env : RouteEnv) (hN : env.nativeOk = true)
    (hOk : ∀ i, env.ocr.convertOk i = true ∧ env.ocr.recognizeOk i = true) :
    ((processRequest env).ocrInvoked = true ↔
      (trimJS env.nativeText = [] ∨
        startsWithChars ("%PDF".toList) (trimJS env.nativeText) = true)) ∧
    ((processRequest env).ocrInvoked = true →
      (processRequest env).ocrPages = List.range' 1 env.ocr.numPages ∧
      (processRequest env).acquired = some (ocrConcat env.ocr) ∧
      List.Pairwise (· < ·) (processRequest env).ocrPages ∧
      ∀ i, i ∈ (processRequest env).ocrPages ↔ 1 ≤ i ∧ i ≤ env.ocr.numPages) ∧
    ((processRequest env).ocrInvoked = false →
      (processRequest env).ocrPages = [] ∧
      (processRequest env).acquired = some env.nativeText) := by
  have hsucc := ocrLoop_success env.ocr (fun i => (hOk i).1) (fun i => (hOk i).2)
    (List.range' 1 env.ocr.numPages) [] [] []
  have htext : (runOcr env.ocr).text = some (ocrConcat env.ocr) := by
    have h1 := hsucc.1
    simpa [runOcr, ocrConcat] using h1
  have hpages : (runOcr env.ocr).pages = List.range' 1 env.ocr.numPages := by
    have h2 := hsucc.2
    simpa [runOcr] using h2
  have hinv : (processRequest env).ocrInvoked = needsOcr env.nativeText := by
    by_cases hno : needsOcr env.nativeText
    · simp only [processRequest, hN, if_true, hno, htext]
    · simp only [processRequest, hN, if_true, hno, if_false,
        Bool.not_eq_true] at *
      simp [processRequest, hN, hno]
  refine ⟨?_, ?_, ?_⟩
  · rw [hinv]
    simp [needsOcr, List.isEmpty_iff]
  · intro hi
    rw [hinv] at hi
    have hout : processRequest env =
        ⟨some (extractAll (ocrConcat env.ocr)), true, true,
          (runOcr env.ocr).pages, some (ocrConcat env.ocr)⟩ := by
      simp only [processRequest, hN, if_true, hi, htext]
    rw [hout, hpages]
    refine ⟨rfl, rfl, ?_, ?_⟩
    · exact List.pairwise_lt_range' 1 env.ocr.numPages
    · intro i
      rw [List.mem_range'_1]
      omega
  · intro hi
    rw [hinv] at hi
    have hout : processRequest env =
        ⟨some (extractAll env.nativeText), true, false, [],
          some env.nativeText⟩ := by
      simp only [processRequest, hN, if_true, hi]
      simp
    rw [hout]
    exact ⟨rfl, rfl⟩

/-- Witness for C6: the two-page scanned demo document invokes OCR and
visits pages one and two in order. -/
theorem claim_C6_witness :
    (processRequest envOcrDemo).ocrPages = List.range' 1 2 ∧
    (processRequest envOcrDemo).acquired = some (ocrConcat envOcrDemo.ocr) := by
  have h := (claim_C6_ocr envOcrDemo rfl (fun i => ⟨rfl, rfl⟩)).2.1 (by rfl)
  exact ⟨h.1, h.2.1⟩

/-- Claim C1, code behavior at the spec's end-to-end scenario A: the
orchestrator maps Late Policy to null, not to the late-submission
sentence, because the built pattern demands a further colon or newline
right after the literal heading "Homework:", and the text has a space
there. -/
theorem claim_C1_code_eval :
    (extractAll ("Homework: Late submissions incur a 10% penalty per day.\nAttendance: mandatory".toList)).lookup
      "Late Policy" = some none := by
  rfl

/-- Counterexample to claim C2 as stated: for this text the Late Policy
value is the empty string: the located section body "abc" is truthy, and
filterLatePolicy then drops its only line. -/
theorem claim_C2_counterexample :
    ¬ ∀ kv ∈ extractAll ("Homework:\nabc".toList), kv.2 ≠ some [] := by
  decide

/-- Claim C2 amended: every result contains exactly the three catalog
keys, once each, in catalog order; the Grading Policy and Grading Weights
values are null or non-empty strings without surrounding whitespace; the
Late Policy value is null or a string without surrounding whitespace that
can be empty when the filter drops every line. -/
theorem claim_C2_amended (text : List Char) :
    ∃ lv gv wv,
      extractAll text = [("Late Policy", lv), ("Grading Policy", gv),
        ("Grading Weights", wv)] ∧
      (∀ s, lv = some s → isTrimmed s) ∧
      (∀ s, gv = some s → s ≠ [] ∧ isTrimmed s) ∧
      (∀ s, wv = some s → s ≠ [] ∧ isTrimmed s) := by
  refine ⟨latePolicyValue text, gradingPolicyValue text, gradingWeightsValue text,
    rfl, ?_, ?_, ?_⟩
  · intro s h
    exact latePolicyValue_sound text s h
  · intro s h
    have h2 := locateWithSpec_bounds_sound text gradingPolicyHeadings
      gradingPolicyBoundaries s h
    exact ⟨h2.1, h2.2.1⟩
  · intro s h
    have h2 := locateWithSpec_bounds_sound text gradingWeightsHeadings
      gradingWeightsBoundaries s h
    exact ⟨h2.1, h2.2.1⟩

/-- Witness for C2 amended at a concrete text. -/
theorem claim_C2_amended_witness :
    ∃ lv gv wv,
      extractAll ("Grading Scale: A=90-100, B=80-89\nAttendance: mandatory".toList) =
        [("Late Policy", lv), ("Grading Policy", gv), ("Grading Weights", wv)] ∧
      (∀ s, lv = some s → isTrimmed s) ∧
      (∀ s, gv = some s → s ≠ [] ∧ isTrimmed s) ∧
      (∀ s, wv = some s → s ≠ [] ∧ isTrimmed s) :=
  claim_C2_amended ("Grading Scale: A=90-100, B=80-89\nAttendance: mandatory".toList)

/-- Counterexample to claim C3 as stated: with heading "Grading Scale:"
the separator run eats the newline in front of the boundary line, so the
boundary line "Attendance: x" is itself captured and returned; the result
does not lie before the earliest boundary line after the heading. -/
theorem claim_C3_counterexample :
    ¬ claimC3Stmt ("Grading Scale:\nAttendance: x".toList)
      ("Grading Scale:".toList) gradingPolicyBoundaries := by
  intro hcl
  have h := hcl ("Attendance: x".toList) (by rfl) 0 (by rfl) 14 (by rfl)
  revert h
  decide

/-- Claim C3 amended: a non-null boundary-aware result is the trim of a
single-line capture, and the match ends either at end of text or
immediately before a newline followed by a boundary literal; no boundary
line can begin inside the captured body, but a boundary line immediately
following the heading's colon/whitespace separator run can itself be the
captured body. -/
theorem claim_C3_amended (text h : List Char) (bs : List (List Char))
    (s : List Char) (hbs : bs ≠ [])
    (hres : extractSectionWithBoundaries text h bs = some s) :
    ∃ u cap rest, text = u ++ cap ++ rest ∧ s = trimJS cap ∧
      (∀ c ∈ cap, c ≠ '\n') ∧
      (rest = [] ∨ ∃ b ∈ bs, ciStarts ('\n' :: b) rest = true) := by
  rcases extractSectionWithBoundaries_sound text h bs s hres with
    ⟨u, cap, rest, hdec, hs2, hnl, hla⟩
  refine ⟨u, cap, rest, hdec, hs2, hnl, ?_⟩
  unfold boundaryLA at hla
  have hbe : bs.isEmpty = false := by
    cases bs with
    | nil => exact absurd rfl hbs
    | cons b bs2 => rfl
  rw [hbe] at hla
  simp only [Bool.false_or, Bool.or_eq_true] at hla
  rcases hla with h1 | h2
  · left
    exact List.isEmpty_iff.mp h1
  · right
    simpa [List.any_eq_true] using h2

/-- Witness for C3 amended at a concrete text: the located Grading Scale
body ends right before the Attendance boundary line. -/
theorem claim_C3_amended_witness :
    ∃ u cap rest,
      "Grading Scale: A=90-100\nAttendance: x".toList = u ++ cap ++ rest ∧
      "A=90-100".toList = trimJS cap ∧ (∀ c ∈ cap, c ≠ '\n') ∧
      (rest = [] ∨ ∃ b ∈ ["Attendance".toList],
        ciStarts ('\n' :: b) rest = true) :=
  claim_C3_amended ("Grading Scale: A=90-100\nAttendance: x".toList)
    ("Grading Scale".toList) ["Attendance".toList] ("A=90-100".toList)
    (by simp) (by rfl)

/-- Counterexample to claim C8 as stated: under the i flag the lookahead
[A-Z][a-z] matches any two letters, so the body "alpha" already stops at
the lowercase line "beta"; under the claim the body would have to run on
to the capitalized line "Gamma delta" or to end of text, and no region of
this text that ends there trims to "alpha". -/
theorem claim_C8_counterexample :
    ¬ claimC8Stmt ("Note: alpha\nbeta\nGamma delta".toList) ("Note".toList) := by
  intro hcl
  have h := hcl ("alpha".toList) (by rfl)
  revert h
  decide

/-- Claim C8 amended: with no boundaries, a non-null result is the trim
of a single-line capture, and the match ends either at end of text or
immediately before a line starting with two ASCII letters of either case:
the i flag makes [A-Z][a-z] case-insensitive, so any letter pair
terminates the body, not only a capitalized-then-lowercase pair. -/
theorem claim_C8_amended (text h s : List Char)
    (hres : extractSection text h = some s) :
    ∃ u cap rest, text = u ++ cap ++ rest ∧ s = trimJS cap ∧
      (∀ c ∈ cap, c ≠ '\n') ∧
      (rest = [] ∨ ∃ a b t2, rest = '\n' :: a :: b :: t2 ∧
        isAsciiLetter a = true ∧ isAsciiLetter b = true) := by
  rcases extractSection_sound text h s hres with ⟨u, cap, rest, hdec, hs2, hnl, hla⟩
  refine ⟨u, cap, rest, hdec, hs2, hnl, ?_⟩
  cases rest with
  | nil => left; rfl
  | cons c t =>
    right
    simp only [defaultLA] at hla
    split at hla
    · rename_i hc
      subst hc
      cases t with
      | nil => simp at hla
      | cons a t1 =>
        cases t1 with
        | nil => simp at hla
        | cons b t2 =>
          rw [Bool.and_eq_true] at hla
          exact ⟨a, b, t2, rfl, hla.1, hla.2⟩
    · cases hla

/-- Witness for C8 amended at a concrete text: the body "foo" runs to end
of text. -/
theorem claim_C8_amended_witness :
    ∃ u cap rest, "Note:\nfoo".toList = u ++ cap ++ rest ∧
      "foo".toList = trimJS cap ∧ (∀ c ∈ cap, c ≠ '\n') ∧
      (rest = [] ∨ ∃ a b t2, rest = '\n' :: a :: b :: t2 ∧
        isAsciiLetter a = true ∧ isAsciiLetter b = true) :=
  claim_C8_amended ("Note:\nfoo".toList) ("Note:".toList) ("foo".toList) (by rfl)
